import Mathlib

set_option maxHeartbeats 1000000

/-! Shallow embedding of the human-key-value-text encoder/decoder (src/lib.rs).
    Rust strings are modelled as lists of characters. -/

/-- Characters of a string literal, the model of a Rust str value. -/
def chars (s : String) : List Char := s.data

/-- DEFAULT_SEPARATOR from src/lib.rs. -/
def DEFAULT_SEPARATOR : List Char := chars ": "

/-- DEFAULT_NEWLINE from src/lib.rs. -/
def DEFAULT_NEWLINE : List Char := chars "\n"

/-- Bool test that p is a leading segment of l, the model of matching a str pattern at the front of a str. -/
def isPfx : List Char → List Char → Bool
  | [], _ => true
  | _ :: _, [] => false
  | a :: p, b :: l => a = b && isPfx p l

/-- Bool test that sep occurs somewhere in l, used to state side conditions about occurrences. -/
def containsSeq (sep : List Char) : List Char → Bool
  | [] => isPfx sep []
  | c :: l => isPfx sep (c :: l) || containsSeq sep l

/-- Split at the first occurrence of sep, returning the text before the first occurrence and
    the text after it; none when sep does not occur in the line. -/
def splitFirst (sep : List Char) : List Char → Option (List Char × List Char)
  | [] => if sep = [] then some ([], []) else none
  | c :: l =>
    if isPfx sep (c :: l) then some ([], (c :: l).drop sep.length)
    else
      match splitFirst sep l with
      | some (pre, post) => some (c :: pre, post)
      | none => none

/-- Model of line.splitn(2, separator).collect() in Deserializer::deserialize: two parts when
    the separator occurs (splitting at its first occurrence), otherwise the single whole line. -/
def splitn2 (sep line : List Char) : List (List Char) :=
  match splitFirst sep line with
  | some (k, v) => [k, v]
  | none => [line]

/-- Strip one trailing carriage return, as Rust str::lines does on each newline-terminated line. -/
def stripCR (l : List Char) : List Char :=
  if l.getLast? = some '\r' then l.dropLast else l

/-- Accumulating helper for rustLines: acc is the current, not yet terminated line. -/
def rustLinesAux : List Char → List Char → List (List Char)
  | acc, [] => if acc.isEmpty then [] else [acc]
  | acc, c :: rest =>
    if c = '\n' then stripCR acc :: rustLinesAux [] rest
    else rustLinesAux (acc ++ [c]) rest

/-- Model of Rust str::lines: split at each linefeed, strip one carriage return before each
    linefeed, keep a final unterminated line verbatim, and produce no final empty line. -/
def rustLines (source : List Char) : List (List Char) := rustLinesAux [] source

/-- Model of struct Serializer: configuration plus the two optional input sequences. -/
structure Serializer where
  separator : List Char
  newline : List Char
  pairs : Option (List (List Char × List Char))
  extra_lines : Option (List (List Char))

/-- Serializer::new. -/
def Serializer.new : Serializer := ⟨DEFAULT_SEPARATOR, DEFAULT_NEWLINE, none, none⟩

/-- Serializer::serialize: push key, separator, value, newline for each pair in order, then
    line, newline for each extra line in order. -/
def Serializer.serialize (self : Serializer) : List Char :=
  let out : List Char := []
  let out :=
    match self.pairs with
    | some pairs => pairs.foldl (fun out kv => out ++ kv.1 ++ self.separator ++ kv.2 ++ self.newline) out
    | none => out
  match self.extra_lines with
  | some extra => extra.foldl (fun out line => out ++ line ++ self.newline) out
  | none => out

/-- pub fn serialize: serializer with default configuration, both sequences supplied. -/
def serialize (pairs : List (List Char × List Char)) (extra : List (List Char)) : List Char :=
  Serializer.serialize ⟨DEFAULT_SEPARATOR, DEFAULT_NEWLINE, some pairs, some extra⟩

/-- pub fn to_string: serializer with default configuration, only the pairs supplied. -/
def to_string (pairs : List (List Char × List Char)) : List Char :=
  Serializer.serialize ⟨DEFAULT_SEPARATOR, DEFAULT_NEWLINE, some pairs, none⟩

/-- Model of struct Deserializer: configuration plus the key allow-list. -/
structure Deserializer where
  separator : List Char
  newline : List Char
  keys : List (List Char)

/-- Model of struct DeserializeData: the two output sequences of deserialization. -/
structure DeserializeData where
  pairs : List (List Char × List Char)
  extra_lines : List (List Char)
deriving DecidableEq

/-- Deserializer::new. -/
def Deserializer.new : Deserializer := ⟨DEFAULT_SEPARATOR, DEFAULT_NEWLINE, []⟩

/-- The loop body of Deserializer::deserialize for one source line: push a pair when the line
    splits into exactly two parts whose first part is an allow-listed key, otherwise push the
    whole line onto extra_lines. -/
def Deserializer.deserializeLine (self : Deserializer) (data : DeserializeData) (line : List Char) : DeserializeData :=
  match splitn2 self.separator line with
  | [k, v] =>
    if k ∈ self.keys then ⟨data.pairs ++ [(k, v)], data.extra_lines⟩
    else ⟨data.pairs, data.extra_lines ++ [line]⟩
  | _ => ⟨data.pairs, data.extra_lines ++ [line]⟩

/-- Deserializer::deserialize: classify every source line into pairs or extra_lines. -/
def Deserializer.deserialize (self : Deserializer) (source : List Char) : DeserializeData :=
  (rustLines source).foldl self.deserializeLine ⟨[], []⟩

/-- pub fn parse: deserialize with default configuration and the given keys. -/
def parse (keys : List (List Char)) (source : List Char) :
    List (List Char × List Char) × List (List Char) :=
  let data := (Deserializer.mk DEFAULT_SEPARATOR DEFAULT_NEWLINE keys).deserialize source
  (data.pairs, data.extra_lines)

/-- Model of DeserializeData::pairs_hashmap: a HashMap is modelled as a lookup function;
    collect inserts each pair in order, a later insert with an equal key overwriting earlier ones. -/
def DeserializeData.pairs_hashmap (self : DeserializeData) : List Char → Option (List Char) :=
  self.pairs.foldl (fun m kv => fun q => if q = kv.1 then some kv.2 else m q) (fun _ => none)

/-- Modelled from the claim: the value at the last occurrence of a key in a pairs list. -/
def lastValue : List (List Char × List Char) → List Char → Option (List Char)
  | [], _ => none
  | kv :: rest, k =>
    match lastValue rest k with
    | some v => some v
    | none => if k = kv.1 then some kv.2 else none

/-- The pair that one line of Deserializer::deserialize produces, when it produces one. -/
def lineToPair (sep : List Char) (keys : List (List Char)) (line : List Char) :
    Option (List Char × List Char) :=
  match splitn2 sep line with
  | [k, v] => if k ∈ keys then some (k, v) else none
  | _ => none

/-- Concatenation of a list of character lists. -/
def concatAll : List (List Char) → List Char
  | [] => []
  | l :: ls => l ++ concatAll ls

theorem isPfx_append (l t : List Char) : isPfx l (l ++ t) = true := by
  induction l with
  | nil => rfl
  | cons a l ih => simp [isPfx, ih]

theorem eq_append_of_isPfx : ∀ {p l : List Char}, isPfx p l = true → l = p ++ l.drop p.length := by
  intro p
  induction p with
  | nil => intro l _; simp
  | cons a p ih =>
    intro l h
    cases l with
    | nil => simp [isPfx] at h
    | cons b l =>
      simp [isPfx] at h
      obtain ⟨hab, hpl⟩ := h
      subst hab
      simpa using ih hpl

theorem splitFirst_of_isPfx {sep l : List Char} (h : isPfx sep l = true) :
    splitFirst sep l = some ([], l.drop sep.length) := by
  cases l with
  | nil =>
    cases sep with
    | nil => rfl
    | cons a p => simp [isPfx] at h
  | cons c l => simp [splitFirst, h]

theorem splitFirst_cons_neg {sep : List Char} {c : Char} {l : List Char}
    (h : isPfx sep (c :: l) = false) :
    splitFirst sep (c :: l) = (splitFirst sep l).map (fun p => (c :: p.1, p.2)) := by
  rw [splitFirst, if_neg (by simp [h])]
  cases hs : splitFirst sep l with
  | none => rfl
  | some p => rfl

theorem splitFirst_first_occ (sep : List Char) :
    ∀ (l : List Char) (i : Nat), isPfx sep (l.drop i) = true →
    (∀ m, m < i → isPfx sep (l.drop m) = false) →
    splitFirst sep l = some (l.take i, l.drop (i + sep.length)) := by
  intro l
  induction l with
  | nil =>
    intro i h _
    cases sep with
    | nil => simp [splitFirst]
    | cons a p => simp [isPfx] at h
  | cons c l ih =>
    intro i h hmin
    cases i with
    | zero =>
      rw [splitFirst_of_isPfx (by simpa using h)]
      simp
    | succ i =>
      have h0 : isPfx sep (c :: l) = false := by simpa using hmin 0 (Nat.succ_pos i)
      rw [splitFirst_cons_neg h0]
      rw [ih i (by simpa using h) (fun m hm => by simpa using hmin (m + 1) (Nat.succ_lt_succ hm))]
      simp [Nat.succ_add]

theorem splitFirst_reconstruct {sep : List Char} :
    ∀ {l k v : List Char}, splitFirst sep l = some (k, v) → l = k ++ sep ++ v := by
  intro l
  induction l with
  | nil =>
    intro k v h
    cases hs : sep with
    | nil =>
      subst hs
      simp [splitFirst] at h
      obtain ⟨hk, hv⟩ := h
      simp [hk, hv]
    | cons a p =>
      subst hs
      simp [splitFirst] at h
  | cons c l ih =>
    intro k v h
    cases hp : isPfx sep (c :: l) with
    | true =>
      rw [splitFirst_of_isPfx hp] at h
      simp at h
      obtain ⟨hk, hv⟩ := h
      subst hk
      subst hv
      simpa using eq_append_of_isPfx hp
    | false =>
      rw [splitFirst_cons_neg hp] at h
      cases hs : splitFirst sep l with
      | none => rw [hs] at h; simp at h
      | some p =>
        obtain ⟨pre, post⟩ := p
        rw [hs] at h
        simp at h
        obtain ⟨hk, hv⟩ := h
        subst hk
        subst hv
        have hl := ih hs
        simp [hl]

theorem rustLinesAux_append : ∀ (l : List Char), '\n' ∉ l →
    ∀ (acc rest : List Char),
    rustLinesAux acc (l ++ '\n' :: rest) = stripCR (acc ++ l) :: rustLinesAux [] rest := by
  intro l
  induction l with
  | nil =>
    intro _ acc rest
    simp [rustLinesAux]
  | cons c l ih =>
    intro h acc rest
    have hc : ¬ (c = '\n') := by
      intro hcn
      exact h (hcn ▸ List.mem_cons_self c l)
    rw [List.cons_append, rustLinesAux, if_neg hc]
    rw [ih (fun hm => h (List.mem_cons_of_mem c hm)) (acc ++ [c]) rest]
    simp

theorem rustLines_concat_lines :
    ∀ (ls : List (List Char)), (∀ l ∈ ls, '\n' ∉ l ∧ l.getLast? ≠ some '\r') →
    rustLines (concatAll (ls.map (fun l => l ++ ['\n']))) = ls := by
  intro ls
  induction ls with
  | nil => intro _; rfl
  | cons l ls ih =>
    intro h
    obtain ⟨h1, h2⟩ := h l (List.mem_cons_self l ls)
    show rustLinesAux [] ((l ++ ['\n']) ++ concatAll (ls.map (fun l => l ++ ['\n']))) = l :: ls
    rw [List.append_assoc, List.singleton_append, rustLinesAux_append l h1 [] _]
    rw [List.nil_append, stripCR, if_neg h2]
    exact congrArg (l :: ·) (ih fun x hx => h x (List.mem_cons_of_mem l hx))

theorem foldl_push_pairs (sep nl : List Char) :
    ∀ (pairs : List (List Char × List Char)) (out : List Char),
    pairs.foldl (fun out kv => out ++ kv.1 ++ sep ++ kv.2 ++ nl) out
      = out ++ concatAll (pairs.map (fun kv => kv.1 ++ sep ++ kv.2 ++ nl)) := by
  intro pairs
  induction pairs with
  | nil => intro out; simp [concatAll]
  | cons kv ps ih =>
    intro out
    rw [List.foldl_cons, ih]
    simp [concatAll, List.append_assoc]

theorem foldl_push_lines (nl : List Char) :
    ∀ (extra : List (List Char)) (out : List Char),
    extra.foldl (fun out line => out ++ line ++ nl) out
      = out ++ concatAll (extra.map (fun line => line ++ nl)) := by
  intro extra
  induction extra with
  | nil => intro out; simp [concatAll]
  | cons l ls ih =>
    intro out
    rw [List.foldl_cons, ih]
    simp [concatAll, List.append_assoc]

theorem serialize_concat (sep nl : List Char)
    (pairs : List (List Char × List Char)) (extra : List (List Char)) :
    Serializer.serialize ⟨sep, nl, some pairs, some extra⟩
      = concatAll (pairs.map (fun kv => kv.1 ++ sep ++ kv.2 ++ nl))
        ++ concatAll (extra.map (fun line => line ++ nl)) := by
  show extra.foldl (fun out line => out ++ line ++ nl)
      (pairs.foldl (fun out kv => out ++ kv.1 ++ sep ++ kv.2 ++ nl) []) = _
  rw [foldl_push_pairs, foldl_push_lines]
  simp

theorem deserialize_foldl (d : Deserializer) :
    ∀ (lines : List (List Char)) (data : DeserializeData),
    lines.foldl d.deserializeLine data
      = ⟨data.pairs ++ lines.filterMap (lineToPair d.separator d.keys),
         data.extra_lines ++ lines.filter (fun l => (lineToPair d.separator d.keys l).isNone)⟩ := by
  intro lines
  induction lines with
  | nil => intro data; simp
  | cons line ls ih =>
    intro data
    rw [List.foldl_cons, ih]
    cases hs : splitFirst d.separator line with
    | some p =>
      obtain ⟨k, v⟩ := p
      by_cases hk : k ∈ d.keys
      · simp [Deserializer.deserializeLine, lineToPair, splitn2, hs, hk, List.append_assoc]
      · simp [Deserializer.deserializeLine, lineToPair, splitn2, hs, hk, List.append_assoc]
    | none => simp [Deserializer.deserializeLine, lineToPair, splitn2, hs, List.append_assoc]

theorem deserialize_eq (d : Deserializer) (source : List Char) :
    d.deserialize source
      = ⟨(rustLines source).filterMap (lineToPair d.separator d.keys),
         (rustLines source).filter (fun l => (lineToPair d.separator d.keys l).isNone)⟩ := by
  show (rustLines source).foldl d.deserializeLine ⟨[], []⟩ = _
  rw [deserialize_foldl]
  simp

theorem length_filterMap_add_filter {α β : Type} (f : α → Option β) :
    ∀ (l : List α),
    (l.filterMap f).length + (l.filter (fun a => (f a).isNone)).length = l.length := by
  intro l
  induction l with
  | nil => rfl
  | cons a l ih =>
    cases hf : f a with
    | some b =>
      simp only [List.filterMap_cons, hf, List.filter_cons, Option.isNone_some,
        List.length_cons, Bool.false_eq_true, if_false]
      omega
    | none =>
      simp only [List.filterMap_cons, hf, List.filter_cons, Option.isNone_none,
        List.length_cons, if_true]
      omega

theorem filterMap_map_sublist {α β : Type} (f : α → Option β) (g : β → α)
    (H : ∀ a b, f a = some b → g b = a) :
    ∀ (l : List α), List.Sublist ((l.filterMap f).map g) l := by
  intro l
  induction l with
  | nil => simp
  | cons a l ih =>
    cases hf : f a with
    | none =>
      simp only [List.filterMap_cons, hf]
      exact List.Sublist.cons a ih
    | some b =>
      simp only [List.filterMap_cons, hf, List.map_cons]
      rw [H a b hf]
      exact List.Sublist.cons₂ a ih

theorem drop_len_append (l t : List Char) : (l ++ t).drop l.length = t := by
  induction l with
  | nil => rfl
  | cons a l ih => simp [ih]

theorem take_len_append (l t : List Char) : (l ++ t).take l.length = l := by
  induction l with
  | nil => rfl
  | cons a l ih => simp [ih]

theorem lineToPair_some : ∀ {sep : List Char} {keys : List (List Char)} {line k v : List Char},
    lineToPair sep keys line = some (k, v) → line = k ++ sep ++ v ∧ k ∈ keys := by
  intro sep keys line k v h
  rw [lineToPair, splitn2] at h
  cases hs : splitFirst sep line with
  | none => rw [hs] at h; simp at h
  | some p =>
    obtain ⟨a, b⟩ := p
    rw [hs] at h
    by_cases hk : a ∈ keys
    · simp only [if_pos hk] at h
      have ha : a = k := congrArg Prod.fst (Option.some.inj h)
      have hb : b = v := congrArg Prod.snd (Option.some.inj h)
      subst ha
      subst hb
      exact ⟨splitFirst_reconstruct hs, hk⟩
    · simp [hk] at h

theorem splitFirst_nil_sep : ∀ (line : List Char), splitFirst [] line = some ([], line) := by
  intro line
  cases line with
  | nil => rfl
  | cons c l => simp [splitFirst, isPfx]

theorem hashmap_foldl :
    ∀ (l : List (List Char × List Char)) (m : List Char → Option (List Char)) (q : List Char),
    l.foldl (fun m kv => fun q => if q = kv.1 then some kv.2 else m q) m q
      = match lastValue l q with
        | some v => some v
        | none => m q := by
  intro l
  induction l with
  | nil => intro m q; rfl
  | cons kv l ih =>
    intro m q
    rw [List.foldl_cons, ih, lastValue]
    cases hs : lastValue l q with
    | some v => rfl
    | none =>
      by_cases hq : q = kv.1
      · simp [hq]
      · simp [hq]

theorem pairs_hashmap_eq_lastValue (d : DeserializeData) (q : List Char) :
    d.pairs_hashmap q = lastValue d.pairs q := by
  rw [DeserializeData.pairs_hashmap, hashmap_foldl]
  cases lastValue d.pairs q <;> rfl

theorem lastValue_isSome : ∀ (l : List (List Char × List Char)) (k : List Char),
    ((lastValue l k).isSome = true) ↔ k ∈ l.map Prod.fst := by
  intro l
  induction l with
  | nil => intro k; simp [lastValue]
  | cons kv l ih =>
    intro k
    rw [lastValue]
    cases hs : lastValue l k with
    | some v =>
      have hk : k ∈ l.map Prod.fst := (ih k).mp (by simp [hs])
      simp [hk]
    | none =>
      by_cases hq : k = kv.1
      · simp [hq]
      · have hk : ¬ k ∈ l.map Prod.fst := by
          intro hm
          have hsome := (ih k).mpr hm
          rw [hs] at hsome
          simp at hsome
        simp [hq, hk]

theorem splitFirst_encoded_line (sep k v : List Char)
    (hstraddle : ∀ i, i < k.length → isPfx sep ((k ++ sep ++ v).drop i) = false) :
    splitFirst sep (k ++ sep ++ v) = some (k, v) := by
  have hocc : isPfx sep ((k ++ sep ++ v).drop k.length) = true := by
    rw [List.append_assoc, drop_len_append]
    exact isPfx_append sep v
  have h1 : (k ++ sep ++ v).take k.length = k := by
    rw [List.append_assoc]
    exact take_len_append k (sep ++ v)
  have h2 : (k ++ sep ++ v).drop (k.length + sep.length) = v := by
    have hlen : k.length + sep.length = (k ++ sep).length := (List.length_append k sep).symm
    rw [hlen]
    exact drop_len_append (k ++ sep) v
  rw [splitFirst_first_occ sep (k ++ sep ++ v) k.length hocc hstraddle, h1, h2]

theorem filterMap_lineToPair_roundtrip (sep : List Char) (K : List (List Char)) :
    ∀ (pairs : List (List Char × List Char)),
    (∀ kv ∈ pairs, kv.1 ∈ K ∧
      (∀ i, i < kv.1.length → isPfx sep ((kv.1 ++ sep ++ kv.2).drop i) = false)) →
    (pairs.map (fun kv => kv.1 ++ sep ++ kv.2)).filterMap (lineToPair sep K) = pairs := by
  intro pairs
  induction pairs with
  | nil => intro _; rfl
  | cons kv ps ih =>
    intro h
    obtain ⟨hk, hstraddle⟩ := h kv (List.mem_cons_self kv ps)
    have hsplit : splitFirst sep (kv.1 ++ sep ++ kv.2) = some (kv.1, kv.2) :=
      splitFirst_encoded_line sep kv.1 kv.2 hstraddle
    have hline : lineToPair sep K (kv.1 ++ sep ++ kv.2) = some (kv.1, kv.2) := by
      rw [lineToPair, splitn2, hsplit]
      simp [hk]
    simp only [List.map_cons, List.filterMap_cons, hline]
    rw [ih (fun x hx => h x (List.mem_cons_of_mem kv hx))]

/-- C2: Serializer::serialize emits, for each pair in sequence order, key ++ separator ++ value
    ++ newline, then, for each extra line in sequence order, line ++ newline, so all pairs come
    before all extra lines; with default options encoding one pair and two extra lines produces
    the expected text. -/
theorem serialize_output_equation :
    (∀ (sep nl : List Char) (pairs : List (List Char × List Char)) (extra : List (List Char)),
      Serializer.serialize ⟨sep, nl, some pairs, some extra⟩
        = concatAll (pairs.map (fun kv => kv.1 ++ sep ++ kv.2 ++ nl))
          ++ concatAll (extra.map (fun line => line ++ nl)))
    ∧ serialize [(chars "foo", chars "bar")] [chars "extra: lines", chars "and stuff"]
        = chars "foo: bar\nextra: lines\nand stuff\n" := by
  constructor
  · intro sep nl pairs extra
    exact serialize_concat sep nl pairs extra
  · decide

/-- C3: the decoder classifies a source line as a key-value pair iff splitting the line at the
    first occurrence of the separator yields exactly two parts whose first part is a member of
    the key allow-list; in every other case the entire original line goes to extra_lines. -/
theorem deserialize_classification (d : Deserializer) (source : List Char) :
    (d.deserialize source).pairs
      = (rustLines source).filterMap (fun line =>
          match splitn2 d.separator line with
          | [k, v] => if k ∈ d.keys then some (k, v) else none
          | _ => none)
    ∧ (d.deserialize source).extra_lines
      = (rustLines source).filter (fun line =>
          match splitn2 d.separator line with
          | [k, _v] => decide (¬ k ∈ d.keys)
          | _ => true) := by
  rw [deserialize_eq]
  constructor
  · rfl
  · have hpt : ∀ (line : List Char),
        (lineToPair d.separator d.keys line).isNone
          = (match splitn2 d.separator line with
             | [k, _v] => decide (¬ k ∈ d.keys)
             | _ => true) := by
      intro line
      rw [lineToPair]
      cases hs : splitn2 d.separator line with
      | nil => rfl
      | cons a t =>
        cases t with
        | nil => rfl
        | cons b t2 =>
          cases t2 with
          | nil => by_cases hk : a ∈ d.keys <;> simp [hk]
          | cons c t3 => rfl
    exact List.filter_congr (fun line _ => hpt line)

/-- C4: decoding never fails and total-classifies the input: the pair count plus the extra-line
    count equals the number of source lines, and the empty source yields two empty sequences. -/
theorem deserialize_partition (d : Deserializer) (source : List Char) :
    (d.deserialize source).pairs.length + (d.deserialize source).extra_lines.length
      = (rustLines source).length
    ∧ d.deserialize [] = ⟨[], []⟩ := by
  constructor
  · rw [deserialize_eq]
    exact length_filterMap_add_filter (lineToPair d.separator d.keys) (rustLines source)
  · rfl

/-- C5: when the separator occurs at two or more positions in a line (at position i, the first
    occurrence, and at a later position j), the split yields exactly two parts: the text before
    position i and everything after the first occurrence, later occurrences kept verbatim. -/
theorem first_split (sep line : List Char) (i j : Nat)
    (_hij : i < j)
    (hocc_i : isPfx sep (line.drop i) = true)
    (_hocc_j : isPfx sep (line.drop j) = true)
    (hmin : ∀ m, m < i → isPfx sep (line.drop m) = false) :
    splitn2 sep line = [line.take i, line.drop (i + sep.length)] := by
  rw [splitn2, splitFirst_first_occ sep line i hocc_i hmin]

theorem first_split_witness :
    (1 : Nat) < 3
    ∧ isPfx (chars ":") ((chars "a:b:c").drop 1) = true
    ∧ isPfx (chars ":") ((chars "a:b:c").drop 3) = true
    ∧ (∀ m, m < 1 → isPfx (chars ":") ((chars "a:b:c").drop m) = false)
    ∧ splitn2 (chars ":") (chars "a:b:c") = [(chars "a:b:c").take 1, (chars "a:b:c").drop 2] :=
  ⟨by decide, by decide, by decide, by decide,
   first_split (chars ":") (chars "a:b:c") 1 3 (by decide) (by decide) (by decide) (by decide)⟩

/-- C6: order preservation — the source lines reconstructed from the pairs output form a sublist
    of the source lines, and the extra lines form a sublist of the source lines, so both outputs
    keep the relative order their lines had in the source. -/
theorem deserialize_order_preservation (d : Deserializer) (source : List Char) :
    List.Sublist ((d.deserialize source).pairs.map (fun kv => kv.1 ++ d.separator ++ kv.2))
      (rustLines source)
    ∧ List.Sublist (d.deserialize source).extra_lines (rustLines source) := by
  rw [deserialize_eq]
  constructor
  · exact filterMap_map_sublist (lineToPair d.separator d.keys)
      (fun kv => kv.1 ++ d.separator ++ kv.2)
      (fun line kv hkv => ((lineToPair_some hkv).1).symm) (rustLines source)
  · exact List.filter_sublist (rustLines source)

/-- C7: the decoder ignores the configured newline option: decoding the same source with the
    same separator and keys but two different newline configurations gives identical results. -/
theorem deserialize_newline_noninterference (sep nl1 nl2 : List Char)
    (keys : List (List Char)) (source : List Char) :
    Deserializer.deserialize ⟨sep, nl1, keys⟩ source
      = Deserializer.deserialize ⟨sep, nl2, keys⟩ source := rfl

/-- C8: decoding the CRLF-terminated source with separator "=" and keys foo, baz accepts and
    strips the CRLF terminators, yielding pairs (foo,bar),(baz,123) and the two extra lines. -/
theorem deserialize_crlf_custom_sep :
    Deserializer.deserialize ⟨chars "=", chars "\r\n", [chars "foo", chars "baz"]⟩
        (chars "foo=bar\r\nbaz=123\r\nextra=lines\r\nand stuff\r\n")
      = ⟨[(chars "foo", chars "bar"), (chars "baz", chars "123")],
         [chars "extra=lines", chars "and stuff"]⟩ := by decide

/-- C9: pairs_hashmap maps each key to the value of its last occurrence in the pairs sequence,
    and its key set is exactly the set of keys occurring in the pairs sequence. -/
theorem pairs_hashmap_last_wins (d : DeserializeData) (k : List Char) :
    d.pairs_hashmap k = lastValue d.pairs k
    ∧ ((d.pairs_hashmap k).isSome = true ↔ k ∈ d.pairs.map Prod.fst) := by
  refine ⟨pairs_hashmap_eq_lastValue d k, ?_⟩
  rw [pairs_hashmap_eq_lastValue]
  exact lastValue_isSome d.pairs k

/-- C10: with the empty separator every line splits into two parts with empty first part; if the
    empty key is allow-listed every line becomes the pair (empty, line) and extra_lines is empty,
    otherwise every line is an extra line and pairs is empty. -/
theorem empty_separator_degenerate (nl : List Char) (keys : List (List Char)) (source : List Char) :
    (∀ line : List Char, splitn2 [] line = [[], line])
    ∧ ([] ∈ keys →
        Deserializer.deserialize ⟨[], nl, keys⟩ source
          = ⟨(rustLines source).map (fun line => ([], line)), []⟩)
    ∧ (¬ [] ∈ keys →
        Deserializer.deserialize ⟨[], nl, keys⟩ source = ⟨[], rustLines source⟩) := by
  refine ⟨fun line => by rw [splitn2, splitFirst_nil_sep], ?_, ?_⟩
  · intro hin
    rw [deserialize_eq]
    have h1 : ∀ (ls : List (List Char)),
        ls.filterMap (lineToPair [] keys) = ls.map (fun line => (([] : List Char), line))
        ∧ ls.filter (fun l => (lineToPair [] keys l).isNone) = [] := by
      intro ls
      induction ls with
      | nil => exact ⟨rfl, rfl⟩
      | cons a ls ih =>
        have ha : lineToPair [] keys a = some ([], a) := by
          rw [lineToPair, splitn2, splitFirst_nil_sep]
          simp [hin]
        exact ⟨by simp [List.filterMap_cons, ha, ih.1], by simp [List.filter_cons, ha, ih.2]⟩
    rw [(h1 _).1, (h1 _).2]
  · intro hout
    rw [deserialize_eq]
    have h2 : ∀ (ls : List (List Char)),
        ls.filterMap (lineToPair [] keys) = []
        ∧ ls.filter (fun l => (lineToPair [] keys l).isNone) = ls := by
      intro ls
      induction ls with
      | nil => exact ⟨rfl, rfl⟩
      | cons a ls ih =>
        have ha : lineToPair [] keys a = none := by
          rw [lineToPair, splitn2, splitFirst_nil_sep]
          simp [hout]
        exact ⟨by simp [List.filterMap_cons, ha, ih.1], by simp [List.filter_cons, ha, ih.2]⟩
    rw [(h2 _).1, (h2 _).2]

theorem empty_separator_degenerate_witness :
    (([] : List Char) ∈ [([] : List Char)]
      ∧ Deserializer.deserialize ⟨[], chars "\n", [[]]⟩ (chars "a\nb\n")
          = ⟨[([], chars "a"), ([], chars "b")], []⟩)
    ∧ (¬ ([] : List Char) ∈ [chars "k"]
      ∧ Deserializer.deserialize ⟨[], chars "\n", [chars "k"]⟩ (chars "a\nb\n")
          = ⟨[], [chars "a", chars "b"]⟩) :=
  ⟨⟨by decide,
    ((empty_separator_degenerate (chars "\n") [[]] (chars "a\nb\n")).2.1 (by decide)).trans
      (by decide)⟩,
   ⟨by decide,
    ((empty_separator_degenerate (chars "\n") [chars "k"] (chars "a\nb\n")).2.2 (by decide)).trans
      (by decide)⟩⟩

/-- C1 counterexample: with default options, keys K = [k], and the single pair (k, vCR) whose
    value ends in a carriage return — so neither key nor value contains the separator or the
    newline — decoding the encoding does not return the original pairs, because str::lines
    strips the carriage return before the linefeed. -/
theorem roundtrip_fails_on_trailing_cr :
    (chars "k") ∈ [chars "k"]
    ∧ containsSeq DEFAULT_SEPARATOR (chars "k") = false
    ∧ containsSeq DEFAULT_SEPARATOR (chars "v\r") = false
    ∧ containsSeq DEFAULT_NEWLINE (chars "k") = false
    ∧ containsSeq DEFAULT_NEWLINE (chars "v\r") = false
    ∧ (Deserializer.deserialize ⟨DEFAULT_SEPARATOR, DEFAULT_NEWLINE, [chars "k"]⟩
        (Serializer.serialize ⟨DEFAULT_SEPARATOR, DEFAULT_NEWLINE,
          some [(chars "k", chars "v\r")], some []⟩)).pairs
      ≠ [(chars "k", chars "v\r")] := by decide

/-- C1 amended: round-trip holds when the configured newline is the linefeed, every key is in K,
    no encoded line key ++ separator ++ value contains a linefeed or ends with a carriage
    return, and no occurrence of the separator starts before the end of the key in
    key ++ separator ++ value (so the first occurrence is the encoded one): decoding the
    encoding of the pairs with an empty extra-lines sequence yields exactly the original pairs. -/
theorem roundtrip_amended (sep : List Char) (K : List (List Char))
    (pairs : List (List Char × List Char))
    (H : ∀ kv ∈ pairs, kv.1 ∈ K
      ∧ '\n' ∉ kv.1 ++ sep ++ kv.2
      ∧ (kv.1 ++ sep ++ kv.2).getLast? ≠ some '\r'
      ∧ ∀ i, i < kv.1.length → isPfx sep ((kv.1 ++ sep ++ kv.2).drop i) = false) :
    (Deserializer.deserialize ⟨sep, ['\n'], K⟩
      (Serializer.serialize ⟨sep, ['\n'], some pairs, some []⟩)).pairs = pairs := by
  have henc : Serializer.serialize ⟨sep, ['\n'], some pairs, some []⟩
      = concatAll ((pairs.map (fun kv => kv.1 ++ sep ++ kv.2)).map (fun l => l ++ ['\n'])) := by
    rw [serialize_concat, List.map_map]
    have hfe : (fun kv : List Char × List Char => kv.1 ++ sep ++ kv.2 ++ ['\n'])
        = (fun l => l ++ ['\n']) ∘ (fun kv : List Char × List Char => kv.1 ++ sep ++ kv.2) := by
      funext kv
      simp [List.append_assoc]
    rw [hfe]
    simp [concatAll]
  have hgood : ∀ l ∈ pairs.map (fun kv => kv.1 ++ sep ++ kv.2),
      '\n' ∉ l ∧ l.getLast? ≠ some '\r' := by
    intro l hl
    obtain ⟨kv, hkv, rfl⟩ := List.mem_map.mp hl
    exact ⟨(H kv hkv).2.1, (H kv hkv).2.2.1⟩
  rw [henc, deserialize_eq]
  show ((rustLines _).filterMap (lineToPair sep K)) = pairs
  rw [rustLines_concat_lines _ hgood]
  exact filterMap_lineToPair_roundtrip sep K pairs
    (fun kv hkv => ⟨(H kv hkv).1, (H kv hkv).2.2.2⟩)

theorem roundtrip_amended_witness :
    (∀ kv ∈ [(chars "foo", chars "bar"), (chars "baz", chars "123")],
      kv.1 ∈ [chars "foo", chars "baz"]
      ∧ '\n' ∉ kv.1 ++ DEFAULT_SEPARATOR ++ kv.2
      ∧ (kv.1 ++ DEFAULT_SEPARATOR ++ kv.2).getLast? ≠ some '\r'
      ∧ ∀ i, i < kv.1.length →
          isPfx DEFAULT_SEPARATOR ((kv.1 ++ DEFAULT_SEPARATOR ++ kv.2).drop i) = false)
    ∧ (Deserializer.deserialize ⟨DEFAULT_SEPARATOR, ['\n'], [chars "foo", chars "baz"]⟩
        (Serializer.serialize ⟨DEFAULT_SEPARATOR, ['\n'],
          some [(chars "foo", chars "bar"), (chars "baz", chars "123")], some []⟩)).pairs
      = [(chars "foo", chars "bar"), (chars "baz", chars "123")] :=
  ⟨by decide, roundtrip_amended DEFAULT_SEPARATOR [chars "foo", chars "baz"]
    [(chars "foo", chars "bar"), (chars "baz", chars "123")] (by decide)⟩
